import Mathlib

/-!
Shallow embedding of `src/main.py`, a minimal proof-of-work blockchain.

Modelling conventions:
* Python strings are Lean `String`; `str.endswith` is `pyEndsWith` (suffix
  test on the character lists); `"0" * k` is `pyStrMul`; Python list
  indexing (with negative-index semantics) is `pyListGet` / `pyListSet`.
* `hashlib.sha256(...).hexdigest()` (the module-level `sha256` helper) is an
  abstract parameter `H : String → String`; the RSA/PKCS#1 v1.5 signing
  pipeline of `Transaction.sign` (SHA256 digest, `signer.sign`, `hexlify`)
  is an abstract deterministic parameter `S : Node → String → String`
  mapping the sender node and the message string to the hex signature.
  PKCS#1 v1.5 signing is deterministic, so a function is a faithful model.
* `datetime.datetime.now()` is modelled as an explicitly passed tick
  (`Nat`); `repr` of a datetime is `timeRepr`, an injective rendering, as
  the library repr is injective on distinct datetimes.
* Python `str(dict)` output is reproduced literally (insertion-ordered
  keys, `repr` of the values); identities and digests are hex strings, so
  `repr` of such a string is just the string wrapped in single quotes.
* The unbounded mining loop is a fuel-indexed search `Block.mineLoop`;
  `none` means the loop is still running after `fuel` iterations.
-/

/-- Python `repr` of a string holding no quote/escape characters
(identities and digests are hexadecimal, so this covers every use in the
program): the string wrapped in single quotes. -/
def pyStrRepr (s : String) : String :=
  "\x27" ++ s ++ "\x27"

/-- The character for a decimal digit `d < 10`. -/
def digitChar (d : Nat) : Char :=
  Char.ofNat (48 + d)

/-- Python `str` of a non-negative integer: decimal rendering. -/
def natStr (n : Nat) : String :=
  if n = 0 then "0" else String.mk (((Nat.digits 10 n).map digitChar).reverse)

/-- Python `str` of an integer: decimal rendering, `-` sign for negatives. -/
def intStr : Int → String
  | Int.ofNat n => natStr n
  | Int.negSucc n => "-" ++ natStr (n + 1)

/-- Python `repr` of the nonce slot: `None` before mining, decimal after. -/
def optNonceStr : Option Nat → String
  | none => "None"
  | some n => natStr n

/-- Modelled from the Python standard library: `repr(datetime)` for the
timestamp, abstracted as an injective rendering of the tick count. -/
def timeRepr (ts : Nat) : String :=
  "datetime.datetime(" ++ natStr ts ++ ")"

/-- Python string repetition `s * k` (clamped at zero for negative `k`). -/
def pyStrMul (s : String) (k : Int) : String :=
  String.join (List.replicate k.toNat s)

/-- Python `s.endswith(suffix)`: suffix test on the character lists. -/
def pyEndsWith (s suffix : String) : Bool :=
  List.isSuffixOf suffix.data s.data

/-- Python list read `l[i]` with negative-index semantics; `none` models
the `IndexError` raise. -/
def pyListGet {α : Type} (l : List α) (i : Int) : Option α :=
  let j : Int := if i < 0 then i + l.length else i
  if 0 ≤ j then l.get? j.toNat else none

/-- In-place update of the object at Python index `i` (used to model
mutation of the block object stored in the chain's list). -/
def pyListSet {α : Type} (l : List α) (i : Int) (a : α) : List α :=
  let j : Int := if i < 0 then i + l.length else i
  if 0 ≤ j then l.set j.toNat a else l

/-- A character is a lowercase hexadecimal digit. -/
def isHexStr (s : String) : Bool :=
  s.data.all (fun c => c ∈ ("0123456789abcdef").data)

/-- `Node` from `src/main.py`: the RSA keypair is abstracted away; only the
data the rest of the program reads is kept: the cosmetic `name` and the
hex `identity` derived from the public key. The key-dependent signer is
the parameter `S` threaded through the signing code. -/
structure Node where
  name : String
  identity : String
deriving DecidableEq, Repr

/-- `Transaction` from `src/main.py`: sender/receiver nodes, transferred
value, creation timestamp (`datetime.datetime.now()` passed explicitly). -/
structure Transaction where
  sender : Node
  receiver : Node
  value : Int
  timestamp : Nat
deriving DecidableEq, Repr

/-- `str(self.to_dict())` from `Transaction.sign`: Python renders the dict
with insertion-ordered keys and `repr` of each value. -/
def Transaction.to_dict_str (t : Transaction) : String :=
  "\x7b\x27sender\x27: " ++ pyStrRepr t.sender.identity ++
  ", \x27receiver\x27: " ++ pyStrRepr t.receiver.identity ++
  ", \x27value\x27: " ++ intStr t.value ++
  ", \x27time\x27: " ++ timeRepr t.timestamp ++ "\x7d"

/-- `Transaction.sign`: the sender's PKCS#1 v1.5 signer applied to the
SHA256 digest of the canonical form, hexlified — abstracted as the
deterministic signer parameter `S` applied to the canonical form. -/
def Transaction.sign (S : Node → String → String) (t : Transaction) : String :=
  S t.sender t.to_dict_str

/-- `Transactions` from `src/main.py`: the pending-transaction queue. -/
structure Transactions where
  lst : List Transaction
  count : Nat
deriving DecidableEq, Repr

/-- `Transactions.__init__`. -/
def Transactions.init : Transactions :=
  { lst := [], count := 0 }

/-- `Transactions.transfer`: appends a freshly built transaction and
increments the count. The clock tick is passed explicitly. -/
def Transactions.transfer (ts : Transactions) (sender receiver : Node)
    (value : Int) (now : Nat) : Transactions :=
  { lst := ts.lst ++ [{ sender := sender, receiver := receiver,
                        value := value, timestamp := now }],
    count := ts.count + 1 }

/-- `Transactions.clear`: empties the list, resets the count. -/
def Transactions.clear (_ts : Transactions) : Transactions :=
  { lst := [], count := 0 }

/-- `Transactions.__copy__`: fresh object, copied list, same count (the
value-level view; the aliasing content of the copy is modelled by the
store-based `PoolStore` operations below). -/
def Transactions.copy (ts : Transactions) : Transactions :=
  { lst := ts.lst, count := ts.count }

/-- `Block` from `src/main.py`. -/
structure Block where
  verified_transactions : Transactions
  previous_hash : String
  difficulty : Int
  transaction_hash : String
  nonce : Option Nat
deriving DecidableEq, Repr

/-- `Block.compute_transaction_hash`: hash of the concatenation, in pool
order, of every transaction's hex signature (string fold, as in source). -/
def Block.compute_transaction_hash (H : String → String)
    (S : Node → String → String) (ts : Transactions) : String :=
  H (ts.lst.foldl (fun acc t => acc ++ Transaction.sign S t) "")

/-- `Block.__init__`: copies the pool, stores the chain link and the
difficulty, computes the transaction digest once, leaves the nonce empty. -/
def Block.construct (H : String → String) (S : Node → String → String)
    (verified_transactions : Transactions) (previous_hash : String)
    (difficulty : Int) : Block :=
  { verified_transactions := verified_transactions.copy,
    previous_hash := previous_hash,
    difficulty := difficulty,
    transaction_hash :=
      Block.compute_transaction_hash H S verified_transactions.copy,
    nonce := none }

/-- `str(self.header_to_dict())` from `Block.mine`. -/
def Block.header_to_dict_str (b : Block) : String :=
  "\x7b\x27previous_hash\x27: " ++ pyStrRepr b.previous_hash ++
  ", \x27difficulty\x27: " ++ intStr b.difficulty ++
  ", \x27transaction_hash\x27: " ++ pyStrRepr b.transaction_hash ++
  ", \x27nonce\x27: " ++ optNonceStr b.nonce ++ "\x7d"

/-- `Block.validate_difficulty`: hash the header rendering, test whether
the digest ends in `difficulty` zero characters. -/
def Block.validate_difficulty (H : String → String) (b : Block)
    (data : String) : String × Bool :=
  let digest := H data
  (digest, pyEndsWith digest (pyStrMul "0" b.difficulty))

/-- The success test for nonce `n` in `Block.mine`'s loop. -/
def Block.minePred (H : String → String) (b : Block) (n : Nat) : Bool :=
  (Block.validate_difficulty H { b with nonce := some n }
    (Block.header_to_dict_str { b with nonce := some n })).2

/-- The `while not success` loop of `Block.mine`, fuel-indexed: try the
current nonce, stop on success, else increment and retry. `none` means the
loop is still running after `fuel` iterations. -/
def Block.mineLoop (H : String → String) (b : Block) :
    Nat → Nat → Option (Nat × String)
  | _, 0 => none
  | nonce, fuel + 1 =>
    let bn : Block := { b with nonce := some nonce }
    let r := Block.validate_difficulty H bn bn.header_to_dict_str
    if r.2 then some (nonce, r.1) else Block.mineLoop H b (nonce + 1) fuel

/-- `Block.mine`: start the search at nonce 0; on success the block keeps
the found nonce and the digest is returned. -/
def Block.mine (H : String → String) (b : Block) (fuel : Nat) :
    Option (Block × String) :=
  (Block.mineLoop H b 0 fuel).map
    (fun r => ({ b with nonce := some r.1 }, r.2))

/-- `Blockchain` from `src/main.py`. -/
structure Blockchain where
  lst : List Block
  count : Nat
  last_hash : String
deriving DecidableEq, Repr

/-- `Blockchain.__init__`. -/
def Blockchain.init : Blockchain :=
  { lst := [], count := 0, last_hash := "" }

/-- `Blockchain.create_block`: build a block chained to `last_hash`,
append it, increment the count. No mining happens here. -/
def Blockchain.create_block (H : String → String)
    (S : Node → String → String) (bc : Blockchain)
    (verified_transactions : Transactions) (difficulty : Int) : Blockchain :=
  { bc with
    lst := bc.lst ++
      [Block.construct H S verified_transactions bc.last_hash difficulty],
    count := bc.count + 1 }

/-- Outcome of `Blockchain.mine_last_block`. The error constructor carries
the chain state at the moment the exception propagates: the out-of-range
read `self.lst[self.count - 1]` raises before anything is mutated. The
spec names this failure `EmptyChainError` (the source raises the list
`IndexError`). `outOfFuel` means the mining loop is still running. -/
inductive MineResult where
  | ok (bc : Blockchain)
  | emptyChainError (bc : Blockchain)
  | outOfFuel
deriving DecidableEq, Repr

/-- `Blockchain.mine_last_block`: read `self.lst[self.count - 1]` (raising
on an empty chain), mine that block in place, store the returned digest in
`last_hash`. -/
def Blockchain.mine_last_block (H : String → String) (bc : Blockchain)
    (fuel : Nat) : MineResult :=
  match pyListGet bc.lst ((bc.count : Int) - 1) with
  | none => MineResult.emptyChainError bc
  | some b =>
    match Block.mine H b fuel with
    | none => MineResult.outOfFuel
    | some r =>
      MineResult.ok
        { bc with
          lst := pyListSet bc.lst ((bc.count : Int) - 1) r.1,
          last_hash := r.2 }

/-- The caller protocol of `main`: starting from a fresh chain, alternate
`create_block` and a successful `mine_last_block`. The trace records, in
order, the proof hash each mining step returned (the value assigned to
`last_hash`). -/
inductive Reaches (H : String → String) (S : Node → String → String) :
    Blockchain → List String → Prop where
  | init : Reaches H S Blockchain.init []
  | step {bc : Blockchain} {hist : List String} {bc2 : Blockchain}
      (pool : Transactions) (difficulty : Int) (fuel : Nat) :
      Reaches H S bc hist →
      Blockchain.mine_last_block H
        (Blockchain.create_block H S bc pool difficulty) fuel =
        MineResult.ok bc2 →
      Reaches H S bc2 (hist ++ [bc2.last_hash])

/-- Heap-level model of the transaction pool for the aliasing behaviour of
`Transactions.__copy__` and `Transactions.clear`: Python list objects live
in a store, a pool holds a reference to its list. -/
structure PoolStore where
  lists : List (List Transaction)
deriving DecidableEq, Repr

/-- A pool object: a reference to its backing list plus its own count. -/
structure PoolRef where
  lid : Nat
  count : Nat
deriving DecidableEq, Repr

/-- Dereference a pool's backing list in the store. -/
def PoolStore.getL (st : PoolStore) (p : PoolRef) : List Transaction :=
  st.lists.getD p.lid []

/-- `Transactions.__copy__` at the heap level: `new.lst = self.lst.copy()`
allocates a fresh list object with the same contents; the count is the
same. -/
def PoolStore.copyOp (st : PoolStore) (p : PoolRef) : PoolStore × PoolRef :=
  ({ lists := st.lists ++ [st.getL p] },
   { lid := st.lists.length, count := p.count })

/-- `Transactions.clear` at the heap level: `self.lst.clear()` empties the
backing list in place (same list object), and the count becomes zero. -/
def PoolStore.clearOp (st : PoolStore) (p : PoolRef) : PoolStore × PoolRef :=
  ({ lists := st.lists.set p.lid [] }, { lid := p.lid, count := 0 })

/-- A block value usable as `List.getD` default in statements. -/
def defaultBlock : Block :=
  { verified_transactions := Transactions.init, previous_hash := "",
    difficulty := 0, transaction_hash := "", nonce := none }

/-- Concrete hash stand-in used by the evaluation witnesses. -/
def demoH : String → String :=
  fun _ => "00"

/-- Concrete signer stand-in used by the evaluation witnesses. -/
def demoS : Node → String → String :=
  fun _ _ => "ab"

/-- Concrete node used by the evaluation witnesses. -/
def nodeA : Node :=
  { name := "a", identity := "aa" }

/-- Concrete node used by the evaluation witnesses. -/
def nodeB : Node :=
  { name := "b", identity := "bb" }

/-- Concrete transaction used by the evaluation witnesses. -/
def demoTx : Transaction :=
  { sender := nodeA, receiver := nodeB, value := 10, timestamp := 3 }

/-- Concrete heap used by the evaluation witnesses: one pool object whose
backing list holds one transaction. -/
def demoStore : PoolStore :=
  { lists := [[demoTx]] }

/-- Reference to the pool object of `demoStore`. -/
def demoPool : PoolRef :=
  { lid := 0, count := 1 }

/-- Concrete difficulty-zero block used by the evaluation witnesses. -/
def demoBlock : Block :=
  Block.construct demoH demoS Transactions.init "" 0

/-- Second concrete block, chained to the proof hash of the first. -/
def demoBlock2 : Block :=
  Block.construct demoH demoS Transactions.init "00" 0

/-- The chain after one create/mine round under `demoH`/`demoS`. -/
def demoChain1 : Blockchain :=
  { lst := [{ demoBlock with nonce := some 0 }], count := 1,
    last_hash := "00" }

/-- The chain after two create/mine rounds under `demoH`/`demoS`. -/
def demoChain2 : Blockchain :=
  { lst := [{ demoBlock with nonce := some 0 },
            { demoBlock2 with nonce := some 0 }],
    count := 2, last_hash := "00" }

theorem str_data_inj {x y : String} (h : x.data = y.data) : x = y := by
  cases x
  cases y
  exact congrArg String.mk h

theorem str_foldl_append (l : List String) (a : String) :
    l.foldl (fun r s => r ++ s) a = a ++ String.join l := by
  induction l generalizing a with
  | nil => simp [String.join]
  | cons x xs ih =>
    have hx : String.join (x :: xs) = x ++ String.join xs := by
      show List.foldl (fun r s => r ++ s) ("" ++ x) xs = _
      rw [ih ("" ++ x), String.empty_append]
    simp only [List.foldl_cons, hx, ih (a ++ x), String.append_assoc]

theorem digitChar_inj_lt {a b : Nat} (ha : a < 10) (hb : b < 10)
    (h : digitChar a = digitChar b) : a = b := by
  have key : ∀ x y : Fin 10, digitChar x.val = digitChar y.val → x = y := by
    decide
  have := key ⟨a, ha⟩ ⟨b, hb⟩ h
  exact congrArg Fin.val this

theorem digitChar_ne_dash {a : Nat} (ha : a < 10) : digitChar a ≠ '-' := by
  have key : ∀ x : Fin 10, digitChar x.val ≠ '-' := by decide
  exact key ⟨a, ha⟩

theorem map_digitChar_inj :
    ∀ (l1 l2 : List Nat), (∀ x ∈ l1, x < 10) → (∀ x ∈ l2, x < 10) →
      l1.map digitChar = l2.map digitChar → l1 = l2 := by
  intro l1
  induction l1 with
  | nil =>
    intro l2 _ _ h
    cases l2 with
    | nil => rfl
    | cons y ys => simp at h
  | cons x xs ih =>
    intro l2 h1 h2 h
    cases l2 with
    | nil => simp at h
    | cons y ys =>
      simp only [List.map_cons, List.cons.injEq] at h
      have hx : x = y :=
        digitChar_inj_lt (h1 x (by simp)) (h2 y (by simp)) h.1
      have hxs : xs = ys :=
        ih ys (fun z hz => h1 z (by simp [hz]))
          (fun z hz => h2 z (by simp [hz])) h.2
      rw [hx, hxs]

theorem natStr_digits_case {n : Nat} (hn : n ≠ 0) :
    natStr n = String.mk (((Nat.digits 10 n).map digitChar).reverse) := by
  simp [natStr, hn]

theorem natStr_inj {m n : Nat} (h : natStr m = natStr n) : m = n := by
  by_cases hm : m = 0 <;> by_cases hn : n = 0
  · rw [hm, hn]
  · exfalso
    rw [hm, natStr_digits_case hn] at h
    have hd : ['0'] = ((Nat.digits 10 n).map digitChar).reverse :=
      congrArg String.data h
    have hd2 : (Nat.digits 10 n).map digitChar = [digitChar 0] := by
      have : (['0'] : List Char).reverse =
          (((Nat.digits 10 n).map digitChar).reverse).reverse :=
        congrArg List.reverse hd
      simpa [digitChar] using this.symm
    have hdig : Nat.digits 10 n = [0] := by
      have h0 : ([0] : List Nat).map digitChar = [digitChar 0] := by simp
      refine map_digitChar_inj _ _ ?_ ?_ (hd2.trans h0.symm)
      · intro x hx
        exact Nat.digits_lt_base (by norm_num) hx
      · intro x hx
        simp at hx
        simp [hx]
    have : n = 0 := by
      have := Nat.ofDigits_digits 10 n
      rw [hdig] at this
      simpa [Nat.ofDigits] using this.symm
    exact hn this
  · exfalso
    rw [hn, natStr_digits_case hm] at h
    have hd : ((Nat.digits 10 m).map digitChar).reverse = ['0'] :=
      congrArg String.data h
    have hd2 : (Nat.digits 10 m).map digitChar = [digitChar 0] := by
      have h3 : (((Nat.digits 10 m).map digitChar).reverse).reverse =
          (['0'] : List Char).reverse :=
        congrArg List.reverse hd
      simpa [digitChar] using h3
    have hdig : Nat.digits 10 m = [0] := by
      have h0 : ([0] : List Nat).map digitChar = [digitChar 0] := by simp
      refine map_digitChar_inj _ _ ?_ ?_ (hd2.trans h0.symm)
      · intro x hx
        exact Nat.digits_lt_base (by norm_num) hx
      · intro x hx
        simp at hx
        simp [hx]
    have : m = 0 := by
      have := Nat.ofDigits_digits 10 m
      rw [hdig] at this
      simpa [Nat.ofDigits] using this.symm
    exact hm this
  · rw [natStr_digits_case hm, natStr_digits_case hn] at h
    have hd : ((Nat.digits 10 m).map digitChar).reverse =
        ((Nat.digits 10 n).map digitChar).reverse :=
      congrArg String.data h
    have hd2 : (Nat.digits 10 m).map digitChar =
        (Nat.digits 10 n).map digitChar := List.reverse_inj.mp hd
    have hdig : Nat.digits 10 m = Nat.digits 10 n := by
      refine map_digitChar_inj _ _ ?_ ?_ hd2
      · intro x hx
        exact Nat.digits_lt_base (by norm_num) hx
      · intro x hx
        exact Nat.digits_lt_base (by norm_num) hx
    calc m = Nat.ofDigits 10 (Nat.digits 10 m) := (Nat.ofDigits_digits 10 m).symm
    _ = Nat.ofDigits 10 (Nat.digits 10 n) := by rw [hdig]
    _ = n := Nat.ofDigits_digits 10 n

theorem natStr_all_digits {n : Nat} {c : Char} (hc : c ∈ (natStr n).data) :
    ∃ d, d < 10 ∧ c = digitChar d := by
  by_cases hn : n = 0
  · rw [hn] at hc
    refine ⟨0, by norm_num, ?_⟩
    have : c = '0' := by simpa [natStr] using hc
    rw [this]
    rfl
  · rw [natStr_digits_case hn] at hc
    simp only [List.mem_reverse, List.mem_map] at hc
    obtain ⟨d, hd, hdc⟩ := hc
    exact ⟨d, Nat.digits_lt_base (by norm_num) hd, hdc.symm⟩

theorem natStr_no_dash {n : Nat} {c : Char} (hc : c ∈ (natStr n).data) :
    c ≠ '-' := by
  obtain ⟨d, hd, rfl⟩ := natStr_all_digits hc
  exact digitChar_ne_dash hd

theorem intStr_inj {x y : Int} (h : intStr x = intStr y) : x = y := by
  cases x with
  | ofNat m =>
    cases y with
    | ofNat n =>
      have hmn : m = n := natStr_inj (by simpa [intStr] using h)
      exact congrArg Int.ofNat hmn
    | negSucc n =>
      exfalso
      simp only [intStr] at h
      have hd : (natStr m).data = '-' :: (natStr (n + 1)).data := by
        have := congrArg String.data h
        simpa [String.data_append] using this
      exact natStr_no_dash (by rw [hd]; exact List.mem_cons_self _ _) rfl
  | negSucc m =>
    cases y with
    | ofNat n =>
      exfalso
      simp only [intStr] at h
      have hd : (natStr n).data = '-' :: (natStr (m + 1)).data := by
        have := congrArg String.data h.symm
        simpa [String.data_append] using this
      exact natStr_no_dash (by rw [hd]; exact List.mem_cons_self _ _) rfl
    | negSucc n =>
      simp only [intStr] at h
      have hd : '-' :: (natStr (m + 1)).data = '-' :: (natStr (n + 1)).data := by
        have := congrArg String.data h
        simpa [String.data_append] using this
      have : natStr (m + 1) = natStr (n + 1) := str_data_inj (by
        injection hd)
      have hmn : m + 1 = n + 1 := natStr_inj this
      exact congrArg Int.negSucc (by omega)

theorem str_app_cancel_left {a x y : String} (h : a ++ x = a ++ y) : x = y := by
  apply str_data_inj
  have hd := congrArg String.data h
  simp only [String.data_append] at hd
  exact List.append_cancel_left hd

theorem str_app_cancel_right {x y c : String} (h : x ++ c = y ++ c) : x = y := by
  apply str_data_inj
  have hd := congrArg String.data h
  simp only [String.data_append] at hd
  exact List.append_cancel_right hd

theorem pyStrRepr_inj {s t : String} (h : pyStrRepr s = pyStrRepr t) : s = t := by
  unfold pyStrRepr at h
  rw [String.append_assoc, String.append_assoc] at h
  exact str_app_cancel_right (str_app_cancel_left h)

theorem timeRepr_inj {a b : Nat} (h : timeRepr a = timeRepr b) : a = b := by
  unfold timeRepr at h
  rw [String.append_assoc, String.append_assoc] at h
  exact natStr_inj (str_app_cancel_right (str_app_cancel_left h))

/-- C7: for the transaction pool, `count == length(sequence)` holds at
construction and is preserved by `transfer`, `clear` and the snapshot
copy. -/
theorem pool_count_invariant :
    Transactions.init.count = Transactions.init.lst.length ∧
    (∀ (ts : Transactions) (s r : Node) (v : Int) (now : Nat),
      ts.count = ts.lst.length →
      (ts.transfer s r v now).count = (ts.transfer s r v now).lst.length) ∧
    (∀ ts : Transactions, ts.count = ts.lst.length →
      ts.clear.count = ts.clear.lst.length) ∧
    (∀ ts : Transactions, ts.count = ts.lst.length →
      ts.copy.count = ts.copy.lst.length) := by
  refine ⟨rfl, ?_, ?_, ?_⟩
  · intro ts s r v now h
    simp [Transactions.transfer, h]
  · intro ts _
    rfl
  · intro ts h
    simpa [Transactions.copy] using h

theorem pool_count_invariant_witness :
    (Transactions.init.transfer nodeA nodeB 10 3).count =
      (Transactions.init.transfer nodeA nodeB 10 3).lst.length :=
  pool_count_invariant.2.1 Transactions.init nodeA nodeB 10 3 rfl

/-- C4: `mine_last_block` on a chain holding no blocks reports the
empty-chain error (the out-of-range read raises before any mutation), and
the state carried at the raise is exactly the original state. -/
theorem mine_last_block_empty_error (H : String → String) (bc : Blockchain)
    (fuel : Nat) (h : bc.lst = []) :
    bc.mine_last_block H fuel = MineResult.emptyChainError bc := by
  have hg : pyListGet bc.lst ((bc.count : Int) - 1) = none := by
    rw [h]
    simp [pyListGet]
  simp only [Blockchain.mine_last_block, hg]

theorem mine_last_block_empty_error_witness :
    Blockchain.init.mine_last_block demoH 3 =
      MineResult.emptyChainError Blockchain.init :=
  mine_last_block_empty_error demoH Blockchain.init 3 rfl

/-- C3: the digest a block stores at construction is the hash of the
concatenation, in pool order, of every transaction's hex signature; for an
empty pool it is the hash of the empty string. -/
theorem transaction_hash_spec (H : String → String)
    (S : Node → String → String) (pool : Transactions) (prev : String)
    (d : Int) :
    (Block.construct H S pool prev d).transaction_hash =
      H (String.join (pool.lst.map (Transaction.sign S))) ∧
    (pool.lst = [] →
      (Block.construct H S pool prev d).transaction_hash = H "") := by
  have hmain : (Block.construct H S pool prev d).transaction_hash =
      H (String.join (pool.lst.map (Transaction.sign S))) := by
    show Block.compute_transaction_hash H S pool.copy = _
    unfold Block.compute_transaction_hash Transactions.copy
    congr 1
    rw [← List.foldl_map (f := Transaction.sign S)
      (g := fun r s => r ++ s), str_foldl_append, String.empty_append]
  refine ⟨hmain, fun hempty => ?_⟩
  rw [hmain, hempty]
  rfl

theorem transaction_hash_spec_witness :
    (Block.construct demoH demoS Transactions.init "" 2).transaction_hash =
      demoH "" :=
  (transaction_hash_spec demoH demoS Transactions.init "" 2).2 rfl

/-- C9: `Transaction.sign` is deterministic: two runs on the same
transaction agree, and the signature is a function of the immutable fields
the canonical form reads (sender node, receiver identifier, value,
timestamp) — in particular it ignores the receiver's cosmetic name. -/
theorem sign_deterministic :
    (∀ (S : Node → String → String) (t : Transaction),
      Transaction.sign S t = Transaction.sign S t) ∧
    (∀ (S : Node → String → String) (t1 t2 : Transaction),
      t1.sender = t2.sender → t1.receiver.identity = t2.receiver.identity →
      t1.value = t2.value → t1.timestamp = t2.timestamp →
      Transaction.sign S t1 = Transaction.sign S t2) := by
  refine ⟨fun S t => rfl, fun S t1 t2 h1 h2 h3 h4 => ?_⟩
  unfold Transaction.sign Transaction.to_dict_str
  rw [h1, h2, h3, h4]

theorem sign_deterministic_witness :
    Transaction.sign demoS demoTx =
      Transaction.sign demoS
        { sender := nodeA,
          receiver := { name := "bee", identity := "bb" },
          value := 10, timestamp := 3 } :=
  sign_deterministic.2 demoS demoTx _ rfl rfl rfl rfl

/-- C5: at the heap level, taking a snapshot (`__copy__`: fresh backing
list, same contents and count) and then clearing the original pool in
place leaves the snapshot's backing list holding the original contents and
its count unchanged. -/
theorem snapshot_isolation (st : PoolStore) (p : PoolRef)
    (hv : p.lid < st.lists.length) :
    ((st.copyOp p).1.clearOp p).1.getL (st.copyOp p).2 = st.getL p ∧
    (st.copyOp p).2.count = p.count := by
  refine ⟨?_, rfl⟩
  unfold PoolStore.copyOp PoolStore.clearOp PoolStore.getL
  simp only [List.getD_eq_getElem?_getD]
  rw [List.getElem?_set_ne (Nat.ne_of_lt hv)]
  rw [List.getElem?_concat_length]
  rfl

theorem snapshot_isolation_witness :
    ((demoStore.copyOp demoPool).1.clearOp demoPool).1.getL
        (demoStore.copyOp demoPool).2 = demoStore.getL demoPool ∧
    (demoStore.copyOp demoPool).2.count = demoPool.count :=
  snapshot_isolation demoStore demoPool (by decide)

theorem mineLoop_succ (H : String → String) (b : Block) (nonce fuel : Nat) :
    Block.mineLoop H b nonce (fuel + 1) =
      if Block.minePred H b nonce then
        some (nonce,
          H (Block.header_to_dict_str { b with nonce := some nonce }))
      else Block.mineLoop H b (nonce + 1) fuel := rfl

theorem minePred_eq (H : String → String) (b : Block) (n : Nat) :
    Block.minePred H b n =
      pyEndsWith (H (Block.header_to_dict_str { b with nonce := some n }))
        (pyStrMul "0" b.difficulty) := rfl

theorem pyEndsWith_empty (s : String) : pyEndsWith s "" = true := by
  show List.isSuffixOf ([] : List Char) s.data = true
  simp [List.isSuffixOf]



theorem mineLoop_some_spec (H : String → String) (b : Block) :
    ∀ (fuel n0 k : Nat) (dg : String),
      Block.mineLoop H b n0 fuel = some (k, dg) →
      n0 ≤ k ∧ Block.minePred H b k = true ∧
      dg = H (Block.header_to_dict_str { b with nonce := some k }) ∧
      ∀ j, n0 ≤ j → j < k → Block.minePred H b j = false := by
  intro fuel
  induction fuel with
  | zero =>
    intro n0 k dg h
    simp [Block.mineLoop] at h
  | succ fuel ih =>
    intro n0 k dg h
    rw [mineLoop_succ] at h
    by_cases hp : Block.minePred H b n0 = true
    · rw [if_pos hp] at h
      injection h with h2
      have hk : n0 = k := congrArg Prod.fst h2
      have hdg : H (Block.header_to_dict_str { b with nonce := some n0 }) = dg :=
        congrArg Prod.snd h2
      subst hk
      refine ⟨Nat.le_refl _, hp, hdg.symm, ?_⟩
      intro j hj1 hj2
      omega
    · rw [if_neg hp] at h
      obtain ⟨h1, h2, h3, h4⟩ := ih (n0 + 1) k dg h
      refine ⟨by omega, h2, h3, ?_⟩
      intro j hj1 hj2
      by_cases hje : j = n0
      · rw [hje]
        exact Bool.not_eq_true _ ▸ (Bool.eq_false_iff.mpr hp)
      · exact h4 j (by omega) hj2

theorem mineLoop_complete (H : String → String) (b : Block) :
    ∀ (fuel n0 k : Nat), n0 ≤ k → k < n0 + fuel →
      Block.minePred H b k = true →
      ∃ r, Block.mineLoop H b n0 fuel = some r := by
  intro fuel
  induction fuel with
  | zero =>
    intro n0 k h1 h2 _
    omega
  | succ fuel ih =>
    intro n0 k h1 h2 hk
    by_cases hp : Block.minePred H b n0 = true
    · exact ⟨(n0, H (Block.header_to_dict_str { b with nonce := some n0 })),
        by rw [mineLoop_succ, if_pos hp]⟩
    · have hne : n0 ≠ k := fun he => hp (he ▸ hk)
      obtain ⟨r, hr⟩ := ih (n0 + 1) k (by omega) (by omega) hk
      exact ⟨r, by rw [mineLoop_succ, if_neg hp]; exact hr⟩

theorem mineLoop_congr (H : String → String) (b b2 : Block)
    (h1 : b2.previous_hash = b.previous_hash)
    (h2 : b2.difficulty = b.difficulty)
    (h3 : b2.transaction_hash = b.transaction_hash) :
    ∀ (fuel n0 : Nat),
      Block.mineLoop H b2 n0 fuel = Block.mineLoop H b n0 fuel := by
  have hhdr : ∀ n : Nat, Block.header_to_dict_str { b2 with nonce := some n } =
      Block.header_to_dict_str { b with nonce := some n } := by
    intro n
    simp [Block.header_to_dict_str, h1, h2, h3]
  have hpred : ∀ n : Nat, Block.minePred H b2 n = Block.minePred H b n := by
    intro n
    rw [minePred_eq, minePred_eq, hhdr n, h2]
  intro fuel
  induction fuel with
  | zero =>
    intro n0
    rfl
  | succ fuel ih =>
    intro n0
    rw [mineLoop_succ, mineLoop_succ, hpred n0, hhdr n0, ih]

/-- C2: given that some nonce satisfies the difficulty predicate (the
unbounded loop terminates exactly when one exists), mining returns, at
some fuel, a digest of the hash's output alphabet ending in at least
`difficulty` zero characters; at difficulty 0 the very first candidate,
nonce 0, satisfies the predicate and is accepted on the first iteration. -/
theorem mine_terminates_and_meets_difficulty (H : String → String) (b : Block)
    (hsolv : ∃ n, Block.minePred H b n = true)
    (hhex : ∀ s, isHexStr (H s) = true) :
    (∃ (fuel : Nat) (b2 : Block) (dg : String),
      Block.mine H b fuel = some (b2, dg) ∧ isHexStr dg = true ∧
      pyEndsWith dg (pyStrMul "0" b.difficulty) = true) ∧
    (b.difficulty = 0 →
      Block.minePred H b 0 = true ∧
      Block.mine H b 1 =
        some ({ b with nonce := some 0 },
          H (Block.header_to_dict_str { b with nonce := some 0 }))) := by
  constructor
  · obtain ⟨n, hn⟩ := hsolv
    obtain ⟨r, hr⟩ := mineLoop_complete H b (n + 1) 0 n (by omega) (by omega) hn
    obtain ⟨h1, h2, h3, h4⟩ := mineLoop_some_spec H b (n + 1) 0 r.1 r.2 (by
      rw [hr])
    refine ⟨n + 1, { b with nonce := some r.1 }, r.2, ?_, ?_, ?_⟩
    · simp [Block.mine, hr]
    · rw [h3]
      exact hhex _
    · rw [h3]
      have := minePred_eq H b r.1 ▸ h2
      exact this
  · intro hd0
    have hp : Block.minePred H b 0 = true := by
      rw [minePred_eq, hd0]
      exact pyEndsWith_empty _
    refine ⟨hp, ?_⟩
    show (Block.mineLoop H b 0 1).map _ = _
    rw [mineLoop_succ, if_pos hp]
    rfl

theorem mine_terminates_witness :
    Block.minePred demoH demoBlock 0 = true ∧
    Block.mine demoH demoBlock 1 =
      some ({ demoBlock with nonce := some 0 },
        demoH (Block.header_to_dict_str { demoBlock with nonce := some 0 })) :=
  (mine_terminates_and_meets_difficulty demoH demoBlock ⟨0, by decide⟩
    (fun _ => rfl)).2 rfl

/-- C6: the transaction digest is fixed at construction (computed over the
frozen snapshot, nonce still absent) and mining never recomputes it:
`mine` changes only the nonce, and its outcome is unchanged if the frozen
snapshot is replaced wholesale while the stored header fields are kept. -/
theorem transaction_hash_once_and_mine_frame :
    (∀ (H : String → String) (b : Block) (fuel : Nat) (b2 : Block)
        (dg : String),
      Block.mine H b fuel = some (b2, dg) →
      b2.previous_hash = b.previous_hash ∧ b2.difficulty = b.difficulty ∧
      b2.transaction_hash = b.transaction_hash ∧
      b2.verified_transactions = b.verified_transactions ∧
      ∀ pool2 : Transactions,
        Block.mine H { b with verified_transactions := pool2 } fuel =
          some ({ b2 with verified_transactions := pool2 }, dg)) ∧
    (∀ (H : String → String) (S : Node → String → String)
        (pool : Transactions) (prev : String) (d : Int),
      (Block.construct H S pool prev d).transaction_hash =
        Block.compute_transaction_hash H S pool.copy ∧
      (Block.construct H S pool prev d).nonce = none) := by
  constructor
  · intro H b fuel b2 dg hm
    unfold Block.mine at hm
    cases hl : Block.mineLoop H b 0 fuel with
    | none =>
      rw [hl] at hm
      simp at hm
    | some r =>
      rw [hl] at hm
      simp only [Option.map_some'] at hm
      injection hm with hm2
      have hb2 : b2 = { b with nonce := some r.1 } :=
        (congrArg Prod.fst hm2).symm
      have hdg : dg = r.2 := (congrArg Prod.snd hm2).symm
      subst hb2
      subst hdg
      refine ⟨rfl, rfl, rfl, rfl, ?_⟩
      intro pool2
      unfold Block.mine
      rw [mineLoop_congr H b { b with verified_transactions := pool2 }
        rfl rfl rfl fuel 0, hl]
      rfl
  · intro H S pool prev d
    exact ⟨rfl, rfl⟩

theorem transaction_hash_once_witness :
    ({ demoBlock with nonce := some 0 } : Block).transaction_hash =
      demoBlock.transaction_hash :=
  (transaction_hash_once_and_mine_frame.1 demoH demoBlock 1
    { demoBlock with nonce := some 0 } "00" (by decide)).2.2.1

/-- C10: mining restarts its search at nonce 0 each call, so mining an
already-mined block finds the same nonce again and returns the same proof
hash: the result is a function of the stored header fields only. -/
theorem mine_idempotent (H : String → String) (b : Block) (f1 f2 : Nat)
    (b1 : Block) (d1 : String) (b2 : Block) (d2 : String)
    (h1 : Block.mine H b f1 = some (b1, d1))
    (h2 : Block.mine H b1 f2 = some (b2, d2)) :
    b2 = b1 ∧ d2 = d1 := by
  unfold Block.mine at h1 h2
  cases hl1 : Block.mineLoop H b 0 f1 with
  | none =>
    rw [hl1] at h1
    simp at h1
  | some r1 =>
    rw [hl1] at h1
    simp only [Option.map_some'] at h1
    injection h1 with h1e
    have hb1 : b1 = { b with nonce := some r1.1 } :=
      (congrArg Prod.fst h1e).symm
    have hd1 : d1 = r1.2 := (congrArg Prod.snd h1e).symm
    cases hl2 : Block.mineLoop H b1 0 f2 with
    | none =>
      rw [hl2] at h2
      simp at h2
    | some r2 =>
      rw [hl2] at h2
      simp only [Option.map_some'] at h2
      injection h2 with h2e
      have hb2 : b2 = { b1 with nonce := some r2.1 } :=
        (congrArg Prod.fst h2e).symm
      have hd2 : d2 = r2.2 := (congrArg Prod.snd h2e).symm
      have hl2b : Block.mineLoop H b 0 f2 = some r2 := by
        rw [← mineLoop_congr H b b1 (by rw [hb1]) (by rw [hb1]) (by rw [hb1])
          f2 0]
        exact hl2
      obtain ⟨_, hp1, hdg1, hmin1⟩ :=
        mineLoop_some_spec H b f1 0 r1.1 r1.2 (by rw [hl1])
      obtain ⟨_, hp2, hdg2, hmin2⟩ :=
        mineLoop_some_spec H b f2 0 r2.1 r2.2 (by rw [hl2b])
      have hkk : r1.1 = r2.1 := by
        by_contra hne
        rcases Nat.lt_or_ge r1.1 r2.1 with hlt | hge
        · have := hmin2 r1.1 (Nat.zero_le _) hlt
          rw [hp1] at this
          exact Bool.noConfusion this
        · have hlt2 : r2.1 < r1.1 := by omega
          have := hmin1 r2.1 (Nat.zero_le _) hlt2
          rw [hp2] at this
          exact Bool.noConfusion this
      constructor
      · rw [hb2, hb1, ← hkk]
      · rw [hd2, hd1, hdg1, hdg2, hkk]

theorem mine_idempotent_witness :
    ({ demoBlock with nonce := some 0 } : Block) =
      ({ demoBlock with nonce := some 0 } : Block) ∧ ("00" : String) = "00" :=
  mine_idempotent demoH demoBlock 1 1 { demoBlock with nonce := some 0 } "00"
    { demoBlock with nonce := some 0 } "00" (by decide) (by decide)

theorem canon_sender_inj {t1 t2 : Transaction}
    (hr : t1.receiver.identity = t2.receiver.identity)
    (hv : t1.value = t2.value) (ht : t1.timestamp = t2.timestamp)
    (h : t1.to_dict_str = t2.to_dict_str) :
    t1.sender.identity = t2.sender.identity := by
  unfold Transaction.to_dict_str at h
  rw [← hr, ← hv, ← ht] at h
  simp only [String.append_assoc] at h
  exact pyStrRepr_inj (str_app_cancel_right (str_app_cancel_left h))

theorem canon_receiver_inj {t1 t2 : Transaction}
    (hs : t1.sender.identity = t2.sender.identity)
    (hv : t1.value = t2.value) (ht : t1.timestamp = t2.timestamp)
    (h : t1.to_dict_str = t2.to_dict_str) :
    t1.receiver.identity = t2.receiver.identity := by
  unfold Transaction.to_dict_str at h
  rw [← hs, ← hv, ← ht] at h
  simp only [String.append_assoc] at h
  exact pyStrRepr_inj (str_app_cancel_right
    (str_app_cancel_left (str_app_cancel_left (str_app_cancel_left h))))

theorem canon_value_inj {t1 t2 : Transaction}
    (hs : t1.sender.identity = t2.sender.identity)
    (hr : t1.receiver.identity = t2.receiver.identity)
    (ht : t1.timestamp = t2.timestamp)
    (h : t1.to_dict_str = t2.to_dict_str) :
    t1.value = t2.value := by
  unfold Transaction.to_dict_str at h
  rw [← hs, ← hr, ← ht] at h
  simp only [String.append_assoc] at h
  have h1 := str_app_cancel_left (str_app_cancel_left
    (str_app_cancel_left (str_app_cancel_left (str_app_cancel_left h))))
  exact intStr_inj (str_app_cancel_right h1)

theorem canon_time_inj {t1 t2 : Transaction}
    (hs : t1.sender.identity = t2.sender.identity)
    (hr : t1.receiver.identity = t2.receiver.identity)
    (hv : t1.value = t2.value)
    (h : t1.to_dict_str = t2.to_dict_str) :
    t1.timestamp = t2.timestamp := by
  unfold Transaction.to_dict_str at h
  rw [← hs, ← hr, ← hv] at h
  simp only [String.append_assoc] at h
  have h1 := str_app_cancel_left (str_app_cancel_left (str_app_cancel_left
    (str_app_cancel_left (str_app_cancel_left (str_app_cancel_left
      (str_app_cancel_left h))))))
  exact timeRepr_inj (str_app_cancel_right h1)

/-- C8: the canonical form `str(to_dict())` is a function of
(sender identifier, receiver identifier, value, timestamp), and changing
exactly one of these four fields while holding the other three fixed
always changes the canonical form. -/
theorem canonical_form_field_sensitivity :
    (∀ t1 t2 : Transaction,
      t1.sender.identity = t2.sender.identity →
      t1.receiver.identity = t2.receiver.identity →
      t1.value = t2.value → t1.timestamp = t2.timestamp →
      t1.to_dict_str = t2.to_dict_str) ∧
    (∀ t1 t2 : Transaction,
      t1.receiver.identity = t2.receiver.identity → t1.value = t2.value →
      t1.timestamp = t2.timestamp →
      t1.sender.identity ≠ t2.sender.identity →
      t1.to_dict_str ≠ t2.to_dict_str) ∧
    (∀ t1 t2 : Transaction,
      t1.sender.identity = t2.sender.identity → t1.value = t2.value →
      t1.timestamp = t2.timestamp →
      t1.receiver.identity ≠ t2.receiver.identity →
      t1.to_dict_str ≠ t2.to_dict_str) ∧
    (∀ t1 t2 : Transaction,
      t1.sender.identity = t2.sender.identity →
      t1.receiver.identity = t2.receiver.identity →
      t1.timestamp = t2.timestamp → t1.value ≠ t2.value →
      t1.to_dict_str ≠ t2.to_dict_str) ∧
    (∀ t1 t2 : Transaction,
      t1.sender.identity = t2.sender.identity →
      t1.receiver.identity = t2.receiver.identity → t1.value = t2.value →
      t1.timestamp ≠ t2.timestamp →
      t1.to_dict_str ≠ t2.to_dict_str) := by
  refine ⟨?_, ?_, ?_, ?_, ?_⟩
  · intro t1 t2 hs hr hv ht
    unfold Transaction.to_dict_str
    rw [hs, hr, hv, ht]
  · intro t1 t2 hr hv ht hne hc
    exact hne (canon_sender_inj hr hv ht hc)
  · intro t1 t2 hs hv ht hne hc
    exact hne (canon_receiver_inj hs hv ht hc)
  · intro t1 t2 hs hr ht hne hc
    exact hne (canon_value_inj hs hr ht hc)
  · intro t1 t2 hs hr hv hne hc
    exact hne (canon_time_inj hs hr hv hc)

theorem canonical_form_field_sensitivity_witness :
    demoTx.to_dict_str ≠
      ({ demoTx with sender := { name := "a", identity := "cc" } } :
        Transaction).to_dict_str :=
  canonical_form_field_sensitivity.2.1 demoTx
    { demoTx with sender := { name := "a", identity := "cc" } }
    rfl rfl rfl (by decide)

theorem getD_concat_length {α : Type} (l : List α) (a d : α) :
    (l ++ [a]).getD l.length d = a := by
  rw [List.getD_eq_getElem?_getD, List.getElem?_concat_length]
  rfl

theorem set_concat_length {α : Type} (l : List α) (a x : α) :
    (l ++ [a]).set l.length x = l ++ [x] := by
  rw [List.set_append]
  simp

theorem mine_some_shape (H : String → String) (b : Block) (fuel : Nat)
    (r : Block × String) (h : Block.mine H b fuel = some r) :
    ∃ k, Block.mineLoop H b 0 fuel = some (k, r.2) ∧
      r.1 = { b with nonce := some k } := by
  unfold Block.mine at h
  cases hl : Block.mineLoop H b 0 fuel with
  | none =>
    rw [hl] at h
    simp at h
  | some p =>
    obtain ⟨k, e⟩ := p
    rw [hl] at h
    simp only [Option.map_some'] at h
    injection h with h2
    have hsnd : e = r.2 := congrArg Prod.snd h2
    have hfst : ({ b with nonce := some k } : Block) = r.1 :=
      congrArg Prod.fst h2
    exact ⟨k, by rw [hsnd], hfst.symm⟩

theorem mine_last_block_ok_shape (H : String → String) (l : List Block)
    (nb : Block) (lh : String) (fuel : Nat) (bc2 : Blockchain)
    (hok : Blockchain.mine_last_block H
      { lst := l ++ [nb], count := l.length + 1, last_hash := lh } fuel =
      MineResult.ok bc2) :
    ∃ (k : Nat) (dg : String),
      Block.mineLoop H nb 0 fuel = some (k, dg) ∧
      bc2 = { lst := l ++ [{ nb with nonce := some k }],
              count := l.length + 1, last_hash := dg } := by
  have h1 : ((l.length + 1 : Nat) : Int) - 1 = (l.length : Int) := by
    push_cast
    ring
  have h2lt : ¬((l.length : Int) < 0) := by omega
  have h2le : (0 : Int) ≤ (l.length : Int) := by omega
  have hget : pyListGet (l ++ [nb]) (((l.length + 1 : Nat) : Int) - 1) =
      some nb := by
    unfold pyListGet
    rw [h1]
    simp only [if_neg h2lt, if_pos h2le, Int.toNat_natCast]
    exact List.get?_concat_length l nb
  unfold Blockchain.mine_last_block at hok
  simp only [hget] at hok
  cases hm : Block.mine H nb fuel with
  | none =>
    simp only [hm] at hok
    exact MineResult.noConfusion hok
  | some r =>
    simp only [hm] at hok
    obtain ⟨k, hloop, hr1⟩ := mine_some_shape H nb fuel r hm
    refine ⟨k, r.2, hloop, ?_⟩
    injection hok with hok2
    rw [← hok2]
    have hset : pyListSet (l ++ [nb]) (((l.length + 1 : Nat) : Int) - 1) r.1 =
        l ++ [{ nb with nonce := some k }] := by
      simp only [pyListSet]
      rw [h1]
      rw [if_neg h2lt, if_pos h2le, Int.toNat_natCast, set_concat_length, hr1]
    rw [hset]

theorem reaches_inv (H : String → String) (S : Node → String → String)
    (bc : Blockchain) (hist : List String)
    (hr : Reaches H S bc hist) :
    bc.count = bc.lst.length ∧ hist.length = bc.lst.length ∧
    bc.last_hash = hist.getD (bc.lst.length - 1) "" ∧
    (0 < bc.lst.length → (bc.lst.getD 0 defaultBlock).previous_hash = "") ∧
    (∀ i, i + 1 < bc.lst.length →
      (bc.lst.getD (i + 1) defaultBlock).previous_hash = hist.getD i "") := by
  induction hr with
  | init =>
    refine ⟨rfl, rfl, rfl, ?_, ?_⟩
    · intro h
      exact absurd h (by decide)
    · intro i hi
      exact absurd hi (by simp [Blockchain.init])
  | @step bc0 hist0 bc2 pool d fuel hre hok ih =>
    obtain ⟨hc, hh, hl, h0, hchain⟩ := ih
    have hok2 : Blockchain.mine_last_block H
        { lst := bc0.lst ++ [Block.construct H S pool bc0.last_hash d],
          count := bc0.lst.length + 1, last_hash := bc0.last_hash } fuel =
        MineResult.ok bc2 := by
      have hcr : Blockchain.create_block H S bc0 pool d =
          { lst := bc0.lst ++ [Block.construct H S pool bc0.last_hash d],
            count := bc0.lst.length + 1, last_hash := bc0.last_hash } := by
        unfold Blockchain.create_block
        rw [hc]
      rw [← hcr]
      exact hok
    obtain ⟨k, dg, hloop, hbc2⟩ := mine_last_block_ok_shape H bc0.lst
      (Block.construct H S pool bc0.last_hash d) bc0.last_hash fuel bc2 hok2
    subst hbc2
    refine ⟨?_, ?_, ?_, ?_, ?_⟩
    · simp
    · simp [hh]
    · simp only [List.length_append, List.length_singleton,
        Nat.add_sub_cancel]
      rw [← hh, getD_concat_length]
    · intro _
      by_cases hl0 : bc0.lst.length = 0
      · have hnil : bc0.lst = [] := List.length_eq_zero.mp hl0
        have hh0 : hist0 = [] := List.length_eq_zero.mp (by rw [hh, hl0])
        rw [hnil]
        simp only [List.nil_append]
        show bc0.last_hash = ""
        rw [hl, hh0]
        rfl
      · have hpos0 : 0 < bc0.lst.length := Nat.pos_of_ne_zero hl0
        rw [List.getD_append _ _ _ 0 hpos0]
        exact h0 hpos0
    · intro i hi
      simp only [List.length_append, List.length_singleton] at hi
      by_cases hcase : i + 1 < bc0.lst.length
      · rw [List.getD_append _ _ _ _ hcase]
        have hhl : i < hist0.length := by
          rw [hh]
          omega
        rw [List.getD_append _ _ _ _ hhl]
        exact hchain i hcase
      · have hieq : i + 1 = bc0.lst.length := by omega
        have hi0 : i < hist0.length := by
          rw [hh]
          omega
        rw [List.getD_append _ _ _ _ hi0]
        rw [hieq, getD_concat_length]
        show bc0.last_hash = hist0.getD i ""
        have hi1 : i = bc0.lst.length - 1 := by omega
        rw [hi1, hl]

/-- C1: for every chain built by alternating `create_block` and a
successful `mine_last_block` from a fresh `Blockchain`, block 0's
`previous_hash` is the empty string and block `i+1`'s `previous_hash` is
the proof hash returned by mining block `i` (the `i`-th entry of the trace
of returned hashes). -/
theorem chain_previous_hash_linkage (H : String → String)
    (S : Node → String → String) (bc : Blockchain) (hist : List String)
    (hr : Reaches H S bc hist) :
    (0 < bc.lst.length → (bc.lst.getD 0 defaultBlock).previous_hash = "") ∧
    ∀ i, i + 1 < bc.lst.length →
      (bc.lst.getD (i + 1) defaultBlock).previous_hash = hist.getD i "" :=
  ⟨(reaches_inv H S bc hist hr).2.2.2.1, (reaches_inv H S bc hist hr).2.2.2.2⟩

theorem chain_previous_hash_linkage_witness :
    (demoChain2.lst.getD 1 defaultBlock).previous_hash = "00" := by
  have h1 : Reaches demoH demoS demoChain1
      (([] : List String) ++ [demoChain1.last_hash]) :=
    @Reaches.step demoH demoS Blockchain.init [] demoChain1
      Transactions.init 0 1 Reaches.init (by decide)
  have h2 : Reaches demoH demoS demoChain2
      ((([] : List String) ++ [demoChain1.last_hash]) ++
        [demoChain2.last_hash]) :=
    @Reaches.step demoH demoS demoChain1
      (([] : List String) ++ [demoChain1.last_hash]) demoChain2
      Transactions.init 0 1 h1 (by decide)
  have h := (chain_previous_hash_linkage demoH demoS demoChain2 _ h2).2 0
    (by decide)
  exact h.trans (by decide)
